import Mathlib

/-!
Verification of the error-aggregation subsystem (`errors/aggregate.go`,
`errors/sets.go`) of the `components` repository.

Go error values are modelled by the inductive type `GoErr`: a `leaf` is a
plain error carrying an identity tag (interface identity of the Go error
value) and its `Error()` message; `agg` is the package-private `aggregate`
slice type, the only implementation of the `Aggregate` interface in the
repository.  A Go `error`-typed variable that may be nil is `Option GoErr`;
an `Aggregate`-typed variable that may be nil is an `Option GoErr` whose
`some` values use the `agg` constructor.
-/

namespace GoComponents

/-- A Go error value: a plain (`leaf`) error with interface identity `eid`
and message `msg`, or a value of the package-private `aggregate` slice
type (the only `Aggregate` implementation in the repository). -/
inductive GoErr where
  | leaf (eid : Nat) (msg : String) : GoErr
  | agg (errs : List GoErr) : GoErr

mutual

/-- Decidable equality on `GoErr` (Go interface-value comparison of the
modelled errors). -/
def decEqE : (a b : GoErr) → Decidable (a = b)
  | GoErr.leaf i m, GoErr.leaf j n =>
    match Nat.decEq i j, String.decEq m n with
    | isTrue h1, isTrue h2 => isTrue (by rw [h1, h2])
    | isFalse h1, _ => isFalse (by intro h; injection h; contradiction)
    | isTrue _, isFalse h2 => isFalse (by intro h; injection h; contradiction)
  | GoErr.leaf _ _, GoErr.agg _ => isFalse (by intro h; exact GoErr.noConfusion h)
  | GoErr.agg _, GoErr.leaf _ _ => isFalse (by intro h; exact GoErr.noConfusion h)
  | GoErr.agg l, GoErr.agg l2 =>
    match decEqL l l2 with
    | isTrue h => isTrue (by rw [h])
    | isFalse h => isFalse (by intro hh; injection hh; contradiction)

/-- Decidable equality on lists of `GoErr`. -/
def decEqL : (a b : List GoErr) → Decidable (a = b)
  | [], [] => isTrue rfl
  | [], _ :: _ => isFalse (by intro h; exact List.noConfusion h)
  | _ :: _, [] => isFalse (by intro h; exact List.noConfusion h)
  | a :: as, b :: bs =>
    match decEqE a b, decEqL as bs with
    | isTrue h1, isTrue h2 => isTrue (by rw [h1, h2])
    | isFalse h1, _ => isFalse (by intro h; injection h; contradiction)
    | isTrue _, isFalse h2 => isFalse (by intro h; injection h; contradiction)

end

instance : DecidableEq GoErr := decEqE

/-- Model of `NewAggregate` (aggregate.go:22-37): drop nil entries; return nil when
nothing remains, otherwise wrap the non-nil entries as an `aggregate`. -/
def newAggregate (errlist : List (Option GoErr)) : Option GoErr :=
  if errlist.length = 0 then none
  else
    let errs := errlist.filterMap id
    if errs.length = 0 then none
    else some (GoErr.agg errs)

/-- Model of `aggregate.Errors` (aggregate.go:101-103) lifted to a possibly-nil
`Aggregate`: a nil aggregate has no errors; `Errors()` of `aggregate(l)`
is `l` itself.  The `leaf` case is unreachable (only `agg` values inhabit
the `Aggregate` interface). -/
def errorsOfOpt : Option GoErr → List GoErr
  | some (GoErr.agg l) => l
  | _ => []

mutual

/-- The leaf (non-aggregate) errors reachable from a single error, in
depth-first discovery order: the errors that `aggregate.visit`
(aggregate.go:77-98) presents to its callback when the element is `e`. -/
def leavesE : GoErr → List GoErr
  | GoErr.leaf i m => [GoErr.leaf i m]
  | GoErr.agg l => leavesL l

/-- The leaf errors reachable from an `aggregate`'s element list, in the
order `aggregate.visit` reaches them. -/
def leavesL : List GoErr → List GoErr
  | [] => []
  | e :: rest => leavesE e ++ leavesL rest

end

mutual

/-- Model of `aggregate.visit` (aggregate.go:77-98) dispatch for one element: a
value of the private `aggregate` type is visited recursively, a plain
error is passed to the callback directly.  (The source's middle
`case Aggregate` branch, for foreign interface implementations, is dead
code in this repository: `aggregate` is the only implementation.) -/
def visitE (f : GoErr → Bool) : GoErr → Bool
  | GoErr.leaf i m => f (GoErr.leaf i m)
  | GoErr.agg l => visitL f l

/-- Model of `aggregate.visit` over the element list: short-circuits on the first
element for which the callback reports a match. -/
def visitL (f : GoErr → Bool) : List GoErr → Bool
  | [] => false
  | e :: rest => visitE f e || visitL f rest

end

/-- Model of `aggregate.Is` (aggregate.go:71-75): visit with the callback
`errors.Is(err, target)`.  The callback only ever receives leaf errors,
which carry no `Unwrap`/`Is` methods, so the standard error-identity
predicate on them is Go interface-value equality, modelled by decidable
equality on `GoErr`. -/
def aggIs (agg : List GoErr) (target : GoErr) : Bool :=
  visitL (fun err => err == target) agg

mutual

/-- The sequence of messages `aggregate.Error` (aggregate.go:43-69) sees
through `visit` for one element: a leaf contributes its `Error()` text,
a nested `aggregate` contributes the messages of its own elements. -/
def visitMsgsE : GoErr → List String
  | GoErr.leaf _ m => [m]
  | GoErr.agg l => visitMsgsL l

/-- The message sequence `aggregate.Error` sees for an element list. -/
def visitMsgsL : List GoErr → List String
  | [] => []
  | e :: rest => visitMsgsE e ++ visitMsgsL rest

end

/-- One step of the message-accumulation loop in `aggregate.Error`
(aggregate.go:53-64): the first component models the `seenerrs` string
set (a list without duplicates, so its length is the set's `Len()`), the
second the `result` string.  A message already seen is skipped; a fresh
message is inserted, preceded in `result` by `", "` exactly when the set
has more than one element after the insertion. -/
def seenStep (acc : List String × String) (msg : String) : List String × String :=
  if acc.1.contains msg then acc
  else
    (msg :: acc.1,
     if 1 < (msg :: acc.1).length then acc.2 ++ ", " ++ msg else acc.2 ++ msg)

/-- Model of `Error()` on a Go error value: a leaf returns its message;
`aggregate.Error` (aggregate.go:43-69) returns `""` for the impossible
empty case, the sole element's `Error()` for a singleton, and otherwise
folds the visited message sequence through the seen-set loop, wrapping
in `[` `]` unless exactly one distinct message was kept. -/
def goError : GoErr → String
  | GoErr.leaf _ m => m
  | GoErr.agg [] => ""
  | GoErr.agg [e] => goError e
  | GoErr.agg (a :: b :: rest) =>
    let p := (visitMsgsL (a :: b :: rest)).foldl seenStep ([], "")
    if p.1.length = 1 then p.2 else "[" ++ p.2 ++ "]"

/-- Model of `Matcher` (aggregate.go:106). -/
def Matcher : Type := GoErr → Bool

/-- Model of `matchesError` (aggregate.go:126-133): true when any matcher returns
true. -/
def matchesError (err : GoErr) (fns : List Matcher) : Bool :=
  fns.any (fun fn => fn err)

mutual

/-- Model of `FilterOut` (aggregate.go:112-123): nil passes through; an
`Aggregate` (necessarily an `agg` value) is rebuilt via `NewAggregate`
from its filtered element list; a plain error is returned unchanged when
no matcher matches it and dropped otherwise. -/
def filterOut (err : Option GoErr) (fns : List Matcher) : Option GoErr :=
  match err with
  | none => none
  | some (GoErr.agg l) => newAggregate ((filterErrors l fns).map some)
  | some e => if matchesError e fns then none else some e
termination_by sizeOf err
decreasing_by
all_goals simp_wf
all_goals omega

/-- Model of `filterErrors` (aggregate.go:137-146): keep the non-nil results of
`FilterOut` on each element, in order. -/
def filterErrors (list : List GoErr) (fns : List Matcher) : List GoErr :=
  match list with
  | [] => []
  | e :: rest =>
    match filterOut (some e) fns with
    | some r => r :: filterErrors rest fns
    | none => filterErrors rest fns
termination_by sizeOf list
decreasing_by
all_goals simp_wf
all_goals
  have h : 0 < sizeOf rest := by cases rest <;> simp_arith
all_goals omega

end

mutual

/-- Model of `Flatten` (aggregate.go:149-167): nil in, nil out; otherwise collect
the recursively flattened elements and rebuild through `NewAggregate`.
The argument has Go type `Aggregate`, so a `some` value is always an
`agg`; the unreachable leaf case returns the value unchanged. -/
def flatten (agg : Option GoErr) : Option GoErr :=
  match agg with
  | none => none
  | some (GoErr.agg l) => newAggregate ((flattenList l).map some)
  | some e => some e
termination_by sizeOf agg
decreasing_by
all_goals simp_wf
all_goals omega

/-- The accumulation loop of `Flatten` (aggregate.go:154-165): a nested
`Aggregate` element contributes the `Errors()` of its non-nil flattening,
a plain element contributes itself.  (The source's `err != nil` guard is
always true here: aggregate elements are non-nil by construction.) -/
def flattenList : List GoErr → List GoErr
  | [] => []
  | GoErr.agg l :: rest =>
    (match flatten (some (GoErr.agg l)) with
     | some r => errorsOfOpt (some r)
     | none => []) ++ flattenList rest
  | GoErr.leaf i m :: rest => GoErr.leaf i m :: flattenList rest
termination_by l => sizeOf l
decreasing_by
all_goals simp_wf
all_goals
  have h : 0 < sizeOf rest := by cases rest <;> simp_arith
all_goals omega

end

/-- Model of `Reduce` (aggregate.go:186-196): an `Aggregate` with exactly one
element reduces to that element, with zero elements to nil; everything
else is returned unchanged. -/
def reduce (err : Option GoErr) : Option GoErr :=
  match err with
  | some (GoErr.agg [e]) => some e
  | some (GoErr.agg []) => none
  | _ => err

/-- The loop body of `CreateAggregateFromMessageCountMap`
(aggregate.go:175-180): one synthetic error per map entry, rendered by
`fmt.Errorf("%v%v", errStr, countStr)` where `countStr` is
`" (repeated N times)"` when the count exceeds 1 and empty otherwise;
counts are Go `int`s, modelled as `Int`. -/
def renderEntry (p : String × Int) : GoErr :=
  GoErr.leaf 0
    (p.1 ++ (if 1 < p.2 then " (repeated " ++ toString p.2 ++ " times)" else ""))

/-- Model of `CreateAggregateFromMessageCountMap` (aggregate.go:170-183).  The Go
map is modelled as an association list in an arbitrary iteration order
(map iteration order is unspecified); a real map has pairwise-distinct
keys. -/
def createAggregateFromMessageCountMap
    (m : Option (List (String × Int))) : Option GoErr :=
  match m with
  | none => none
  | some entries => newAggregate ((entries.map renderEntry).map some)

/-- Model of `String.IsSuperset` (sets.go:132-139) on the string-set model: the
Go `map[string]Empty` set is modelled as a `Finset String`. -/
def sIsSuperset (s s2 : Finset String) : Bool :=
  decide (∀ item ∈ s2, item ∈ s)

/-- Model of `String.Equal` (sets.go:144-146): equal lengths plus superset. -/
def sEqual (s s2 : Finset String) : Bool :=
  decide (s.card = s2.card) && sIsSuperset s s2

/-- Model of `String.Intersection` (sets.go:113-129): walk the smaller of the two
operand sets, keep the keys the larger one also has, inserted into a
fresh result set. -/
def sIntersection (s s2 : Finset String) : Finset String :=
  let wo : Finset String × Finset String :=
    if s.card < s2.card then (s, s2) else (s2, s)
  wo.1.filter (fun key => key ∈ wo.2)

/-- Spec-side rendering helper: keep only the first occurrence of each
message, relative to an already-seen list. -/
def dedupFirst (seen : List String) : List String → List String
  | [] => []
  | m :: rest =>
    if seen.contains m then dedupFirst seen rest
    else m :: dedupFirst (m :: seen) rest

/-- Spec-side rendering helper: `", " ++ m` for every message, used for
the tail of a `", "`-joined message list. -/
def joinRest : List String → String
  | [] => ""
  | m :: rest => ", " ++ m ++ joinRest rest

/-- Spec-side rendering helper: join messages with `", "`. -/
def joinSep : List String → String
  | [] => ""
  | m :: rest => m ++ joinRest rest

mutual

/-- The invariant `NewAggregate` maintains (spec §3: an Aggregate is never
constructed with zero non-nil errors): every aggregate node in the value,
at any depth, has a non-empty element list. -/
def wellFormedE : GoErr → Bool
  | GoErr.leaf _ _ => true
  | GoErr.agg l => !(l.isEmpty) && wellFormedL l

/-- Predicate `wellFormedE` on every element of a list. -/
def wellFormedL : List GoErr → Bool
  | [] => true
  | e :: rest => wellFormedE e && wellFormedL rest

end

/-- Leaf errors of a possibly-nil error value. -/
def leavesOpt : Option GoErr → List GoErr
  | none => []
  | some e => leavesE e

theorem newAggregate_map_some (x : List GoErr) :
    newAggregate (x.map some) = if x = [] then none else some (GoErr.agg x) := by
  unfold newAggregate
  rcases x with _ | ⟨a, rest⟩
  · simp
  · simp [List.filterMap_map]

/-- C1: `NewAggregate(L)` is nil exactly when `L` has no non-nil entries,
and otherwise wraps precisely the non-nil entries of `L` in their original
order, so that `Errors()` returns them; for a non-empty nil-free `L` the
non-nil entries are `L` itself. -/
theorem claim_C1_newAggregate (L : List (Option GoErr)) :
    errorsOfOpt (newAggregate L) = L.filterMap id
    ∧ (newAggregate L = none ↔ L.filterMap id = []) := by
  unfold newAggregate
  by_cases h0 : L.length = 0
  · have hL : L = [] := List.length_eq_zero.mp h0
    subst hL
    simp [errorsOfOpt]
  · simp only [h0, if_false]
    by_cases h1 : (L.filterMap id).length = 0
    · have hE : L.filterMap id = [] := List.length_eq_zero.mp h1
      simp [h1, hE, errorsOfOpt]
    · have hne : L.filterMap id ≠ [] := by
        intro hh
        rw [hh] at h1
        simp at h1
      simp [h1, errorsOfOpt, hne]

/-- C1 witness: a concrete list with a nil entry. -/
theorem claim_C1_witness :
    errorsOfOpt (newAggregate [some (GoErr.leaf 0 "a"), none, some (GoErr.leaf 1 "b")])
      = [GoErr.leaf 0 "a", GoErr.leaf 1 "b"]
    ∧ newAggregate [(none : Option GoErr), none] = none := by
  constructor
  · exact (claim_C1_newAggregate [some (GoErr.leaf 0 "a"), none, some (GoErr.leaf 1 "b")]).1
  · exact (claim_C1_newAggregate [(none : Option GoErr), none]).2.mpr (by decide)

/-- C6: `Reduce` collapses a singleton aggregate to its sole element and
an empty aggregate to nil, and returns every other error — plain errors
and aggregates of two or more elements — unchanged. -/
theorem claim_C6_reduce :
    (∀ e : GoErr, reduce (some (GoErr.agg [e])) = some e)
    ∧ reduce (some (GoErr.agg [])) = none
    ∧ (∀ i m, reduce (some (GoErr.leaf i m)) = some (GoErr.leaf i m))
    ∧ (∀ a b rest, reduce (some (GoErr.agg (a :: b :: rest)))
        = some (GoErr.agg (a :: b :: rest)))
    ∧ reduce none = none :=
  ⟨fun _ => rfl, rfl, fun _ _ => rfl, fun _ _ _ => rfl, rfl⟩

/-- C6 witness: `Reduce` at concrete singleton, doubleton and plain
inputs. -/
theorem claim_C6_witness :
    reduce (some (GoErr.agg [GoErr.leaf 3 "x"])) = some (GoErr.leaf 3 "x")
    ∧ reduce (some (GoErr.agg [GoErr.leaf 3 "x", GoErr.leaf 4 "y"]))
        = some (GoErr.agg [GoErr.leaf 3 "x", GoErr.leaf 4 "y"]) :=
  ⟨claim_C6_reduce.1 (GoErr.leaf 3 "x"),
   claim_C6_reduce.2.2.2.1 (GoErr.leaf 3 "x") (GoErr.leaf 4 "y") []⟩

/-- C9: `Intersection` is commutative up to `Equal`, whichever operand the
implementation chooses to walk. -/
theorem claim_C9_intersection (a b : Finset String) :
    sEqual (sIntersection a b) (sIntersection b a) = true := by
  have h : ∀ s t : Finset String, sIntersection s t = s ∩ t := by
    intro s t
    unfold sIntersection
    by_cases hc : s.card < t.card
    · simp [hc, Finset.filter_mem_eq_inter]
    · simp [hc, Finset.filter_mem_eq_inter, Finset.inter_comm]
  rw [h a b, h b a, Finset.inter_comm b a]
  unfold sEqual sIsSuperset
  simp

/-- C9 witness: commutativity at two concrete sets. -/
theorem claim_C9_witness :
    sEqual (sIntersection {"a", "b"} {"b", "c"})
      (sIntersection {"b", "c"} {"a", "b"}) = true :=
  claim_C9_intersection {"a", "b"} {"b", "c"}

mutual

theorem visitE_any (f : GoErr → Bool) : ∀ e : GoErr, visitE f e = (leavesE e).any f
  | GoErr.leaf i m => by simp [visitE, leavesE]
  | GoErr.agg l => by
    rw [visitE, leavesE]
    exact visitL_any f l

theorem visitL_any (f : GoErr → Bool) : ∀ l : List GoErr, visitL f l = (leavesL l).any f
  | [] => by simp [visitL, leavesL]
  | e :: rest => by
    rw [visitL, leavesL, List.any_append, visitE_any f e, visitL_any f rest]

end

/-- C3: `aggregate.Is(target)` holds exactly when the identity predicate
matches `target` against some error reachable anywhere in the nested
structure — equivalently, the traversal is one flat pass that tests each
plain (leaf) error directly against the predicate, never re-entering a
nested aggregate through its own `Is`. -/
theorem claim_C3_aggIs (agg : List GoErr) (target : GoErr) :
    (aggIs agg target = true ↔ target ∈ leavesL agg)
    ∧ aggIs agg target = (leavesL agg).any (fun e => e == target) := by
  have h := visitL_any (fun e => e == target) agg
  rw [aggIs] at *
  refine ⟨?_, h⟩
  rw [h]
  simp [List.any_eq_true]

/-- C3 witness: a target buried one aggregate deep is found; an absent
target is not. -/
theorem claim_C3_witness :
    aggIs [GoErr.agg [GoErr.leaf 1 "a"], GoErr.leaf 2 "b"] (GoErr.leaf 1 "a") = true
    ∧ aggIs [GoErr.agg [GoErr.leaf 1 "a"], GoErr.leaf 2 "b"] (GoErr.leaf 9 "z") ≠ true := by
  constructor
  · exact (claim_C3_aggIs [GoErr.agg [GoErr.leaf 1 "a"], GoErr.leaf 2 "b"]
      (GoErr.leaf 1 "a")).1.mpr (by decide)
  · intro h
    have := (claim_C3_aggIs [GoErr.agg [GoErr.leaf 1 "a"], GoErr.leaf 2 "b"]
      (GoErr.leaf 9 "z")).1.mp h
    revert this
    decide

theorem seenStep_fold (msgs : List String) :
    ∀ (seen : List String) (res : String), seen ≠ [] →
      msgs.foldl seenStep (seen, res)
        = ((dedupFirst seen msgs).reverse ++ seen,
           res ++ joinRest (dedupFirst seen msgs)) := by
  induction msgs with
  | nil =>
    intro seen res _
    simp [dedupFirst, joinRest, String.append_empty]
  | cons m rest ih =>
    intro seen res hne
    by_cases hm : m ∈ seen
    · have hstep : seenStep (seen, res) m = (seen, res) := by
        simp [seenStep, hm]
      rw [List.foldl_cons, hstep, ih seen res hne]
      simp [dedupFirst, hm]
    · have hlen : 0 < seen.length := List.length_pos.mpr hne
      have hstep : seenStep (seen, res) m = (m :: seen, res ++ ", " ++ m) := by
        simp [seenStep, hm, hlen]
      rw [List.foldl_cons, hstep, ih (m :: seen) (res ++ ", " ++ m) (by simp)]
      simp [dedupFirst, hm, joinRest, List.reverse_cons, List.append_assoc,
        String.append_assoc]

theorem seenStep_fold_start (msgs : List String) :
    msgs.foldl seenStep ([], "")
      = ((dedupFirst [] msgs).reverse, joinSep (dedupFirst [] msgs)) := by
  cases msgs with
  | nil => simp [dedupFirst, joinSep]
  | cons m rest =>
    rw [List.foldl_cons]
    have hstep : seenStep ([], "") m = ([m], "" ++ m) := by
      simp [seenStep]
    rw [hstep, seenStep_fold rest [m] ("" ++ m) (by simp)]
    simp [dedupFirst, joinSep, joinRest, String.empty_append, String.append_assoc]

mutual

theorem visitMsgsE_eq : ∀ e : GoErr, visitMsgsE e = (leavesE e).map goError
  | GoErr.leaf i m => by simp [visitMsgsE, leavesE, goError]
  | GoErr.agg l => by
    rw [visitMsgsE, leavesE]
    exact visitMsgsL_eq l

theorem visitMsgsL_eq : ∀ l : List GoErr, visitMsgsL l = (leavesL l).map goError
  | [] => by simp [visitMsgsL, leavesL]
  | e :: rest => by
    rw [visitMsgsL, leavesL, List.map_append, visitMsgsE_eq e, visitMsgsL_eq rest]

end

/-- C2: a singleton aggregate renders as its sole element's message; with
two or more elements, the messages seen by the transparent depth-first
traversal are deduplicated keeping first occurrences, joined with `", "`,
and bracketed unless exactly one distinct message remains; the traversal
presents exactly the reachable leaf messages in order; and the spec's
end-to-end example renders as `"[disk full, network timeout]"`. -/
theorem claim_C2_error :
    (∀ e : GoErr, goError (GoErr.agg [e]) = goError e)
    ∧ (∀ l : List GoErr, visitMsgsL l = (leavesL l).map goError)
    ∧ (∀ a b rest,
        goError (GoErr.agg (a :: b :: rest))
          = (if (dedupFirst [] (visitMsgsL (a :: b :: rest))).length = 1 then
               joinSep (dedupFirst [] (visitMsgsL (a :: b :: rest)))
             else
               "[" ++ joinSep (dedupFirst [] (visitMsgsL (a :: b :: rest))) ++ "]"))
    ∧ goError (GoErr.agg [GoErr.leaf 1 "disk full", GoErr.leaf 2 "disk full",
        GoErr.leaf 3 "network timeout"]) = "[disk full, network timeout]" := by
  refine ⟨fun e => by rw [goError], visitMsgsL_eq, ?_, by rfl⟩
  intro a b rest
  rw [goError]
  rw [seenStep_fold_start]
  simp [List.length_reverse]

/-- C2 witness: the singleton case and the end-to-end rendering at
concrete errors. -/
theorem claim_C2_witness :
    goError (GoErr.agg [GoErr.leaf 7 "boom"]) = "boom"
    ∧ goError (GoErr.agg [GoErr.leaf 1 "disk full", GoErr.leaf 2 "disk full",
        GoErr.leaf 3 "network timeout"]) = "[disk full, network timeout]" :=
  ⟨claim_C2_error.1 (GoErr.leaf 7 "boom"), claim_C2_error.2.2.2⟩

mutual

theorem leavesE_shape : ∀ e : GoErr, ∀ x ∈ leavesE e, ∃ i m, x = GoErr.leaf i m
  | GoErr.leaf i m => by
    intro x hx
    rw [leavesE] at hx
    simp at hx
    exact ⟨i, m, hx⟩
  | GoErr.agg l => by
    rw [leavesE]
    exact leavesL_shape l

theorem leavesL_shape : ∀ l : List GoErr, ∀ x ∈ leavesL l, ∃ i m, x = GoErr.leaf i m
  | [] => by
    rw [leavesL]
    simp
  | e :: rest => by
    intro x hx
    rw [leavesL] at hx
    rcases List.mem_append.mp hx with h | h
    · exact leavesE_shape e x h
    · exact leavesL_shape rest x h

end

theorem leavesL_of_leaves :
    ∀ l : List GoErr, (∀ x ∈ l, ∃ i m, x = GoErr.leaf i m) → leavesL l = l := by
  intro l
  induction l with
  | nil => intro _; rw [leavesL]
  | cons e rest ih =>
    intro h
    rcases h e (by simp) with ⟨i, m, rfl⟩
    rw [leavesL, leavesE]
    simp [ih (fun x hx => h x (by simp [hx]))]

mutual

theorem flatten_eq : ∀ l : List GoErr,
    flatten (some (GoErr.agg l)) = newAggregate ((leavesL l).map some)
  | l => by
    rw [show flatten (some (GoErr.agg l)) = newAggregate ((flattenList l).map some)
      from by simp [flatten]]
    rw [flattenList_eq l]
termination_by l => sizeOf l + 1

theorem flattenList_eq : ∀ l : List GoErr, flattenList l = leavesL l
  | [] => by
    rw [show flattenList [] = [] from by simp [flattenList], leavesL]
  | GoErr.agg l :: rest => by
    rw [show flattenList (GoErr.agg l :: rest)
        = (match flatten (some (GoErr.agg l)) with
           | some r => errorsOfOpt (some r)
           | none => []) ++ flattenList rest
      from by simp [flattenList]]
    rw [flatten_eq l, flattenList_eq rest, leavesL, leavesE, newAggregate_map_some]
    by_cases h : leavesL l = []
    · simp [h, errorsOfOpt]
    · simp [h, errorsOfOpt]
  | GoErr.leaf i m :: rest => by
    rw [show flattenList (GoErr.leaf i m :: rest) = GoErr.leaf i m :: flattenList rest
      from by simp [flattenList]]
    rw [flattenList_eq rest, leavesL, leavesE]
    simp
termination_by l => sizeOf l

end

/-- C5: `Flatten(nil)` is nil; `Flatten` of an aggregate is the aggregate
of all reachable leaf errors in discovery order (nil when there are
none); every collected element is a leaf, so no aggregate wrappers
remain; and flattening twice renders the same `Errors()` list as
flattening once. -/
theorem claim_C5_flatten :
    flatten none = none
    ∧ (∀ l : List GoErr,
        flatten (some (GoErr.agg l))
          = if leavesL l = [] then none else some (GoErr.agg (leavesL l)))
    ∧ (∀ l : List GoErr, ∀ x ∈ leavesL l, ∃ i m, x = GoErr.leaf i m)
    ∧ (∀ l : List GoErr,
        errorsOfOpt (flatten (flatten (some (GoErr.agg l))))
          = errorsOfOpt (flatten (some (GoErr.agg l)))) := by
  have hmain : ∀ l : List GoErr,
      flatten (some (GoErr.agg l))
        = if leavesL l = [] then none else some (GoErr.agg (leavesL l)) := by
    intro l
    rw [flatten_eq l, newAggregate_map_some]
  refine ⟨by simp [flatten], hmain, leavesL_shape, ?_⟩
  intro l
  rw [hmain l]
  by_cases h : leavesL l = []
  · simp [h, flatten]
  · have hfix : leavesL (leavesL l) = leavesL l :=
      leavesL_of_leaves (leavesL l) (leavesL_shape l)
    simp only [h, if_false]
    rw [hmain (leavesL l), hfix]
    simp [h]

/-- C5 witness: flattening a doubly nested aggregate yields the leaf list
in discovery order, and the shape conjunct at a concrete member. -/
theorem claim_C5_witness :
    flatten (some (GoErr.agg [GoErr.agg [GoErr.leaf 1 "a",
        GoErr.agg [GoErr.leaf 2 "b"]], GoErr.leaf 3 "c"]))
      = some (GoErr.agg [GoErr.leaf 1 "a", GoErr.leaf 2 "b", GoErr.leaf 3 "c"])
    ∧ (∃ i m, GoErr.leaf 2 "b" = GoErr.leaf i m) := by
  constructor
  · rw [claim_C5_flatten.2.1 [GoErr.agg [GoErr.leaf 1 "a",
      GoErr.agg [GoErr.leaf 2 "b"]], GoErr.leaf 3 "c"]]
    decide
  · exact claim_C5_flatten.2.2.1 [GoErr.agg [GoErr.leaf 2 "b"]]
      (GoErr.leaf 2 "b") (by decide)

theorem filterOut_leaf_eq (i : Nat) (m : String) (fns : List Matcher) :
    filterOut (some (GoErr.leaf i m)) fns
      = if matchesError (GoErr.leaf i m) fns then none
        else some (GoErr.leaf i m) := by
  simp [filterOut]

theorem filterOut_agg_eq (l : List GoErr) (fns : List Matcher) :
    filterOut (some (GoErr.agg l)) fns
      = newAggregate ((filterErrors l fns).map some) := by
  simp [filterOut]

theorem filterErrors_cons_eq (e : GoErr) (rest : List GoErr) (fns : List Matcher) :
    filterErrors (e :: rest) fns
      = (match filterOut (some e) fns with
         | some r => r :: filterErrors rest fns
         | none => filterErrors rest fns) := by
  simp [filterErrors]

mutual

theorem fo_none_iff : ∀ (e : GoErr) (fns : List Matcher),
    filterOut (some e) fns = none ↔ ∀ x ∈ leavesE e, matchesError x fns = true
  | GoErr.leaf i m, fns => by
    rw [filterOut_leaf_eq, leavesE]
    by_cases h : matchesError (GoErr.leaf i m) fns
    · simp [h]
    · simp [h]
  | GoErr.agg l, fns => by
    rw [filterOut_agg_eq, newAggregate_map_some, leavesE]
    by_cases h : filterErrors l fns = []
    · simp only [h, if_true]
      exact iff_of_true trivial ((fe_nil_iff l fns).mp h)
    · simp only [h, if_false]
      constructor
      · intro hc
        exact absurd hc (by simp)
      · intro hall
        exact absurd ((fe_nil_iff l fns).mpr hall) h

theorem fe_nil_iff : ∀ (l : List GoErr) (fns : List Matcher),
    filterErrors l fns = [] ↔ ∀ x ∈ leavesL l, matchesError x fns = true
  | [], fns => by
    rw [leavesL]
    simp [filterErrors]
  | e :: rest, fns => by
    rw [filterErrors_cons_eq, leavesL]
    cases hfo : filterOut (some e) fns with
    | none =>
      have h1 := (fo_none_iff e fns).mp hfo
      rw [fe_nil_iff rest fns]
      constructor
      · intro hall x hx
        rcases List.mem_append.mp hx with h | h
        · exact h1 x h
        · exact hall x h
      · intro hall x hx
        exact hall x (List.mem_append.mpr (Or.inr hx))
    | some r =>
      have h1 : ¬ ∀ x ∈ leavesE e, matchesError x fns = true := by
        intro hall
        rw [(fo_none_iff e fns).mpr hall] at hfo
        exact Option.noConfusion hfo
      constructor
      · intro hc
        exact List.noConfusion hc
      · intro hall
        exact absurd (fun x hx => hall x (List.mem_append.mpr (Or.inl hx))) h1

end

mutual

theorem filterOut_keep : ∀ (e : GoErr) (fns : List Matcher),
    wellFormedE e = true → (∀ x ∈ leavesE e, matchesError x fns = false) →
    filterOut (some e) fns = some e
  | GoErr.leaf i m, fns => by
    intro _ h
    have hm := h (GoErr.leaf i m) (by rw [leavesE]; simp)
    rw [filterOut_leaf_eq, hm]
    simp
  | GoErr.agg l, fns => by
    intro hwf h
    rw [wellFormedE, Bool.and_eq_true] at hwf
    have hne : l ≠ [] := by
      intro hl
      subst hl
      simp at hwf
    rw [leavesE] at h
    rw [filterOut_agg_eq, filterErrors_keep l fns hwf.2 h, newAggregate_map_some]
    simp [hne]

theorem filterErrors_keep : ∀ (l : List GoErr) (fns : List Matcher),
    wellFormedL l = true → (∀ x ∈ leavesL l, matchesError x fns = false) →
    filterErrors l fns = l
  | [], fns => by
    intro _ _
    simp [filterErrors]
  | e :: rest, fns => by
    intro hwf h
    rw [wellFormedL, Bool.and_eq_true] at hwf
    rw [leavesL] at h
    have he : filterOut (some e) fns = some e :=
      filterOut_keep e fns hwf.1
        (fun x hx => h x (List.mem_append.mpr (Or.inl hx)))
    rw [filterErrors_cons_eq, he, filterErrors_keep rest fns hwf.2
      (fun x hx => h x (List.mem_append.mpr (Or.inr hx)))]

end

mutual

theorem filterOut_leaves : ∀ (e : GoErr) (fns : List Matcher),
    leavesOpt (filterOut (some e) fns)
      = (leavesE e).filter (fun x => !(matchesError x fns))
  | GoErr.leaf i m, fns => by
    rw [filterOut_leaf_eq]
    by_cases h : matchesError (GoErr.leaf i m) fns
    · simp [h, leavesOpt, leavesE]
    · simp [h, leavesOpt, leavesE]
  | GoErr.agg l, fns => by
    have hl := filterErrors_leaves l fns
    rw [filterOut_agg_eq, newAggregate_map_some, leavesE]
    by_cases h : filterErrors l fns = []
    · rw [h, leavesL] at hl
      simp only [h, if_true]
      rw [leavesOpt, ← hl]
    · simp only [h, if_false]
      rw [leavesOpt, leavesE, hl]

theorem filterErrors_leaves : ∀ (l : List GoErr) (fns : List Matcher),
    leavesL (filterErrors l fns)
      = (leavesL l).filter (fun x => !(matchesError x fns))
  | [], fns => by
    simp [filterErrors, leavesL]
  | e :: rest, fns => by
    have he := filterOut_leaves e fns
    have hr := filterErrors_leaves rest fns
    rw [filterErrors_cons_eq, leavesL, List.filter_append]
    cases hfo : filterOut (some e) fns with
    | none =>
      rw [hfo, leavesOpt] at he
      rw [hr, ← he]
      simp
    | some r =>
      rw [hfo, leavesOpt] at he
      rw [leavesL, he, hr]

end

/-- C4: `FilterOut` passes nil through; tests a plain error directly,
dropping it exactly when some matcher matches; rebuilds an aggregate
keeping exactly the reachable leaf errors no matcher matches, in order;
with no matchers a (well-formed) input passes through unchanged; and a
matcher matching every error empties any input. -/
theorem claim_C4_filterOut :
    (∀ fns, filterOut none fns = none)
    ∧ (∀ i m fns, filterOut (some (GoErr.leaf i m)) fns
        = if matchesError (GoErr.leaf i m) fns then none
          else some (GoErr.leaf i m))
    ∧ (∀ l fns, leavesOpt (filterOut (some (GoErr.agg l)) fns)
        = (leavesL l).filter (fun x => !(matchesError x fns)))
    ∧ (∀ e, wellFormedE e = true → filterOut (some e) [] = some e)
    ∧ (∀ e, filterOut (some e) [fun _ => true] = none) := by
  refine ⟨fun fns => by simp [filterOut], filterOut_leaf_eq,
    fun l fns => filterOut_leaves (GoErr.agg l) fns, ?_, ?_⟩
  · intro e hwf
    exact filterOut_keep e [] hwf (fun x _ => by simp [matchesError])
  · intro e
    exact (fo_none_iff e [fun _ => true]).mpr
      (fun x _ => by simp [matchesError])

/-- C4 witness: concrete pass-through with no matchers and concrete
emptying with a match-all matcher. -/
theorem claim_C4_witness :
    filterOut (some (GoErr.agg [GoErr.leaf 0 "a", GoErr.agg [GoErr.leaf 1 "b"]])) []
      = some (GoErr.agg [GoErr.leaf 0 "a", GoErr.agg [GoErr.leaf 1 "b"]])
    ∧ filterOut (some (GoErr.agg [GoErr.leaf 0 "a"])) [fun _ => true] = none :=
  ⟨claim_C4_filterOut.2.2.2.1
      (GoErr.agg [GoErr.leaf 0 "a", GoErr.agg [GoErr.leaf 1 "b"]]) (by decide),
   claim_C4_filterOut.2.2.2.2 (GoErr.agg [GoErr.leaf 0 "a"])⟩

/-- C10: matchers are only ever applied to plain (non-aggregate) errors:
if every supplied matcher rejects every plain error, `FilterOut` removes
nothing from a well-formed input — a matcher recognising only aggregate
wrapper values is never consulted on them — and the result collapses to
nil exactly when every reachable leaf error is matched. -/
theorem claim_C10_filterOut_matchers :
    (∀ (e : GoErr) (fns : List Matcher),
       wellFormedE e = true →
       (∀ fn ∈ fns, ∀ i m, fn (GoErr.leaf i m) = false) →
       filterOut (some e) fns = some e)
    ∧ (∀ (e : GoErr) (fns : List Matcher),
       filterOut (some e) fns = none
         ↔ ∀ x ∈ leavesE e, matchesError x fns = true) := by
  refine ⟨?_, fo_none_iff⟩
  intro e fns hwf hleaf
  refine filterOut_keep e fns hwf ?_
  intro x hx
  rcases leavesE_shape e x hx with ⟨i, m, rfl⟩
  rw [matchesError]
  rw [List.any_eq_false]
  intro fn hfn
  simp [hleaf fn hfn i m]

/-- C10 witness: a matcher that recognises exactly the nested aggregate
wrapper value removes nothing from the aggregate containing it. -/
theorem claim_C10_witness :
    filterOut (some (GoErr.agg [GoErr.agg [GoErr.leaf 1 "a"], GoErr.leaf 2 "b"]))
      [fun e => match e with | GoErr.agg _ => true | _ => false]
      = some (GoErr.agg [GoErr.agg [GoErr.leaf 1 "a"], GoErr.leaf 2 "b"]) := by
  refine claim_C10_filterOut_matchers.1
    (GoErr.agg [GoErr.agg [GoErr.leaf 1 "a"], GoErr.leaf 2 "b"])
    [fun e => match e with | GoErr.agg _ => true | _ => false]
    (by decide) ?_
  intro fn hfn i m
  rcases List.mem_singleton.mp hfn with rfl
  rfl

/-- C8: for a non-nil message-count map, whatever order the map is
iterated in, exactly one synthetic error is produced per entry, and an
entry's rendered message is the bare key unless its count exceeds 1, in
which case the `" (repeated N times)"` suffix is appended. -/
theorem claim_C8_messageCountMap :
    createAggregateFromMessageCountMap none = none
    ∧ (∀ entries : List (String × Int),
        (errorsOfOpt (createAggregateFromMessageCountMap (some entries))).map goError
          = entries.map (fun p =>
              if 1 < p.2 then p.1 ++ " (repeated " ++ toString p.2 ++ " times)"
              else p.1)
        ∧ (errorsOfOpt (createAggregateFromMessageCountMap (some entries))).length
            = entries.length) := by
  refine ⟨rfl, ?_⟩
  intro entries
  have hfun : (fun p => goError (renderEntry p))
      = (fun p : String × Int =>
          if 1 < p.2 then p.1 ++ " (repeated " ++ toString p.2 ++ " times)"
          else p.1) := by
    funext p
    by_cases h : 1 < p.2
    · simp [renderEntry, goError, h, String.append_assoc]
    · simp [renderEntry, goError, h, String.append_empty]
  rw [show createAggregateFromMessageCountMap (some entries)
      = newAggregate ((entries.map renderEntry).map some) from rfl]
  rw [newAggregate_map_some]
  by_cases he : entries = []
  · subst he
    simp [errorsOfOpt]
  · have hne : entries.map renderEntry ≠ [] := by
      simpa using he
    simp only [hne, if_false]
    rw [show errorsOfOpt (some (GoErr.agg (entries.map renderEntry)))
        = entries.map renderEntry from rfl]
    rw [List.map_map]
    exact ⟨by rw [show goError ∘ renderEntry = fun p => goError (renderEntry p)
      from rfl, hfun], by simp⟩

/-- C8 witness: a two-entry map with counts 3 and 1 renders with the
suffix exactly on the repeated entry. -/
theorem claim_C8_witness :
    (errorsOfOpt (createAggregateFromMessageCountMap
        (some [("boom", 3), ("ok", 1)]))).map goError
      = ["boom (repeated 3 times)", "ok"] := by
  rw [(claim_C8_messageCountMap.2 [("boom", 3), ("ok", 1)]).1]
  rfl

end GoComponents
